import Mathlib

/-!
# Verification of the price-ledger pipeline (`src/regular/prices.py`)

Shallow embedding of the program's pure core:

* Python strings are modelled as lists of Unicode code points (`Str := List Nat`);
  `str.strip` / `str.upper` become `pyStrip` / `pyUpper` operating on code points.
* The CSV file is modelled at the record level: a file is `Option (List (List Str))`
  (`none` = file absent; each record is the list of cell strings of one line; a blank
  line is the empty record `[]`).  `csv.DictReader` row access becomes `rowGet`,
  `csv.DictWriter` row emission becomes positional cell lists.  Python's `None`
  cell values are identified with the empty string, which is what the `csv` writer
  renders them as.
* `dict.get(k, default)` on string-keyed dicts becomes association-list lookup
  (`lookupD`).
* The HTTP boundary of `get_prices` is an explicit input: an optional API key, and
  a transport result that is either a failure (network error / timeout) or a
  decoded response carrying the HTTP status code, the API `status.error_code`
  (with the Python-side default 0 already applied), and the per-symbol quote
  outcome for the requested convert currency.
-/

/-- A Python string, as its sequence of Unicode code points. -/
abbrev Str := List Nat

/-- Code points of a Lean string literal, for writing concrete `Str` values. -/
def chars (s : String) : Str := s.data.map Char.toNat

/-- Python `str.isspace`-style whitespace test for the code points stripped by
`str.strip()` (space, tab, LF, VT, FF, CR). -/
def isSpaceChar (c : Nat) : Bool :=
  c = 32 || c = 9 || c = 10 || c = 11 || c = 12 || c = 13

/-- Python `str.strip()`: drop whitespace from both ends. -/
def pyStrip (s : Str) : Str :=
  ((s.dropWhile isSpaceChar).reverse.dropWhile isSpaceChar).reverse

/-- Python `str.upper()` on one code point (ASCII letters; other code points kept). -/
def pyUpperChar (c : Nat) : Nat :=
  if 97 ≤ c ∧ c ≤ 122 then c - 32 else c

/-- Python `str.upper()`. -/
def pyUpper (s : Str) : Str := s.map pyUpperChar

/-- Loop of `normalize_symbols` (`prices.py` lines 41-52).  The Python code keeps a
`seen` set alongside `cleaned`; since `seen` always holds exactly the members of
`cleaned`, the membership test is made on the accumulator directly.  The guard
`if not s or not str(s).strip()` is equivalent to `str(s).strip()` being empty
(an empty `s` also strips to empty). -/
def normAux : List Str → List Str → List Str
  | cleaned, [] => cleaned
  | cleaned, s :: rest =>
    if pyStrip s = [] then normAux cleaned rest
    else
      let sym := pyUpper (pyStrip s)
      if sym ∈ cleaned then normAux cleaned rest
      else normAux (cleaned ++ [sym]) rest

/-- `normalize_symbols` (`prices.py` lines 39-52): strip, uppercase, drop blanks,
deduplicate keeping first occurrences. -/
def normalize_symbols (symbols : List Str) : List Str := normAux [] symbols

/-- The literal `"timestamp"`, the fixed first CSV column name. -/
def tsCol : Str := chars "timestamp"

/-- Association-list lookup, the model of Python dict access keyed by strings
(first matching key wins; an input dict has unique keys, so the choice is
immaterial). -/
def alookup {β : Type} : List (Str × β) → Str → Option β
  | [], _ => none
  | (a, b) :: t, k => if k = a then some b else alookup t k

/-- Python `d.get(k, "")` on a string-valued dict. -/
def lookupD (m : List (Str × Str)) (k : Str) : Str := (alookup m k).getD []

/-- `csv.DictReader` cell access `row.get(h, "")` for a record `row` read under
header `hdr`: the reader builds a dict pairing `hdr` with the record's cells
(a record shorter than the header is padded with `None`, modelled as the empty
string since both render as an empty cell); on duplicate header names the last
occurrence wins, hence the lookup on the reversed pairing; a name absent from
the header yields the default empty string. -/
def rowGet (hdr row : List Str) (h : Str) : Str :=
  (alookup ((hdr.zip (row ++ List.replicate (hdr.length - row.length) [])).reverse) h).getD []

/-- The two records written on the fresh-file path (`prices.py` lines 142-147 and
156-161): the header `["timestamp"] + symbols`, then one row with the timestamp
and `price_map.get(s, "")` for each symbol, in header order (`csv.DictWriter`
emits the dict's values in field-name order). -/
def freshRecords (timestamp : Str) (symbols : List Str) (price_map : List (Str × Str)) :
    List (List Str) :=
  [tsCol :: symbols, timestamp :: symbols.map (fun s => lookupD price_map s)]

/-- `ensure_header_and_append_row` (`prices.py` lines 126-189) as a pure function
from the old file contents to the new ones.

* `none` — the file does not exist (Case 1);
* `some []` — the file is empty, so `next(reader, None)` is `None` (Case 2);
* a blank first line reads as the empty record `[]`, also falsy (Case 2);
* otherwise the header is merged: `old_cols` drops empty cells and `"timestamp"`
  cells, `new_cols` are the normalized symbols not already present, and if the
  union differs from the old header every row is re-projected onto it
  (`csv.DictReader` skips blank records, hence the filter).  Finally one row is
  appended with `price_map.get(col, "")` for every non-timestamp union column. -/
def ensure_header_and_append_row (file : Option (List (List Str))) (timestamp : Str)
    (symbols0 : List Str) (price_map : List (Str × Str)) : List (List Str) :=
  let symbols := normalize_symbols symbols0
  match file with
  | none => freshRecords timestamp symbols price_map
  | some [] => freshRecords timestamp symbols price_map
  | some (old_header :: rows) =>
    if old_header = [] then freshRecords timestamp symbols price_map
    else
      let old_cols := old_header.filter (fun c => decide (c ≠ [] ∧ c ≠ tsCol))
      let new_cols := symbols.filter (fun c => decide (c ∉ old_cols))
      let union_header := tsCol :: (old_cols ++ new_cols)
      let body :=
        if union_header = old_header then old_header :: rows
        else
          union_header ::
            (rows.filter (fun r => decide (r ≠ []))).map
              (fun r => union_header.map (rowGet old_header r))
      body ++ [timestamp :: (old_cols ++ new_cols).map (fun c => lookupD price_map c)]


/-- A Python float value as `float(price)` can produce it: a finite rational, an
infinity, or NaN.  Non-finite results are reachable, e.g. `float("inf")` and
`float("1e999")` both evaluate to positive infinity without raising. -/
inductive PyFloat
  | finite (q : Rat)
  | inf
  | neginf
  | nan
deriving DecidableEq

/-- Whether a Python float value is finite. -/
def PyFloat.isFinite : PyFloat → Bool
  | .finite _ => true
  | _ => false

/-- Outcome of the per-symbol quote extraction in `get_prices` (`prices.py` lines
101-117), for the requested convert currency:

* `missingItem` — `returned.get(sym)` is falsy (absent, `None`, or empty);
* `missingPrice` — the `quote`/convert/`price` drill-down yields `None`;
* `invalid` — `float(price)` raises `TypeError` or `ValueError`;
* `price v` — `float(price)` succeeds with value `v`. -/
inductive RawQuote
  | missingItem
  | missingPrice
  | invalid
  | price (v : PyFloat)
deriving DecidableEq

/-- The decoded API response as `get_prices` consumes it: HTTP status code, the
API `status.error_code` (the Python-side default `0` for a missing field already
applied), and the per-symbol quote outcomes from the `data` mapping. -/
structure ApiResponse where
  status_code : Nat
  error_code : Int
  quotes : List (Str × RawQuote)
deriving DecidableEq

/-- The spec's taxonomy (§7) for the four fatal `raise` sites of `get_prices`:
missing credential (line 64), empty normalized symbol list (line 70), transport
failure or timeout (line 85), and non-success HTTP status or non-zero API error
code (lines 88 and 93). -/
inductive FetchError
  | ConfigError
  | InputError
  | NetworkError
  | ApiError
deriving DecidableEq

/-- The result-building loop of `get_prices` (`prices.py` lines 101-117): walk the
requested symbols in order; a symbol whose quote outcome is a successfully
parsed price contributes an entry, every other outcome is skipped with a
warning print (pure model: just skipped). -/
def collectQuotes : List Str → List (Str × RawQuote) → List (Str × PyFloat)
  | [], _ => []
  | s :: rest, quotes =>
    match (alookup quotes s).getD .missingItem with
    | .price v => (s, v) :: collectQuotes rest quotes
    | _ => collectQuotes rest quotes

/-- `get_prices` (`prices.py` lines 59-119) as a pure function of its HTTP
boundary: `api_key` models the `API_KEY` global (`none` = unset; the Python
test `if not API_KEY` is also true for a set-but-empty key, hence the
`getD [] = []` test), and `transport` models the `requests.get` call (`Except`
error = `requests.RequestException`, including timeouts). -/
def get_prices (api_key : Option Str) (transport : Except Unit ApiResponse)
    (symbols0 : List Str) : Except FetchError (List (Str × PyFloat)) :=
  if api_key.getD [] = [] then .error .ConfigError
  else
    let symbols := normalize_symbols symbols0
    if symbols = [] then .error .InputError
    else
      match transport with
      | .error _ => .error .NetworkError
      | .ok r =>
        if r.status_code ≠ 200 then .error .ApiError
        else if r.error_code ≠ 0 then .error .ApiError
        else .ok (collectQuotes symbols r.quotes)

/-- First-occurrence deduplication, used to state the normalizer's ordering
contract: keep each element's first occurrence, drop the later ones. -/
def dedupKeepFirst : List Str → List Str
  | [] => []
  | x :: l => x :: (dedupKeepFirst l).filter (fun y => decide (y ≠ x))

/-- Well-formed non-timestamp column list of a ledger header (spec §3): distinct,
non-empty, and distinct from the timestamp column name. -/
def WFHeaderCols (cols : List Str) : Prop :=
  cols.Nodup ∧ ∀ c ∈ cols, c ≠ [] ∧ c ≠ tsCol

/-- Well-formed ledger file state (spec §3): if the file exists and has a header
line, the header is the timestamp column followed by well-formed symbol columns
and every row has exactly as many cells as the header. -/
def WFLedger : Option (List (List Str)) → Prop
  | none => True
  | some [] => True
  | some (hdr :: rows) =>
    hdr = [] ∨
      ∃ cols, hdr = tsCol :: cols ∧ WFHeaderCols cols ∧
        ∀ r ∈ rows, r.length = cols.length + 1

/-- The new columns a request adds to an existing column list: the normalized
request symbols not already present, in request order. -/
def newColsOf (cols : List Str) (symbols0 : List Str) : List Str :=
  (normalize_symbols symbols0).filter (fun c => decide (c ∉ cols))

/-!
## Helper lemmas

Character-level facts about `pyStrip` and `pyUpper`, the normalizer's
invariants, association-lookup facts, and the shape of each branch of the
reconciler.
-/

theorem pyUpperChar_not_lower (c : Nat) : ¬(97 ≤ pyUpperChar c ∧ pyUpperChar c ≤ 122) := by
  unfold pyUpperChar; split <;> omega

theorem pyUpperChar_idem (c : Nat) : pyUpperChar (pyUpperChar c) = pyUpperChar c := by
  have h := pyUpperChar_not_lower c
  conv_lhs => rw [pyUpperChar]
  rw [if_neg h]

theorem isSpaceChar_pyUpperChar (c : Nat) : isSpaceChar (pyUpperChar c) = isSpaceChar c := by
  have h : ∀ n : Nat, isSpaceChar n =
      decide (n = 32 ∨ n = 9 ∨ n = 10 ∨ n = 11 ∨ n = 12 ∨ n = 13) := by
    intro n; simp [isSpaceChar, Bool.or_assoc]
  rw [h, h, decide_eq_decide]
  unfold pyUpperChar; split <;> omega

theorem pyUpper_idem (s : Str) : pyUpper (pyUpper s) = pyUpper s := by
  simp only [pyUpper, List.map_map]
  exact List.map_congr_left (fun c _ => pyUpperChar_idem c)

theorem dropWhile_dropWhile (p : Nat → Bool) (l : Str) :
    (l.dropWhile p).dropWhile p = l.dropWhile p := by
  induction l with
  | nil => rfl
  | cons x xs ih =>
    rw [List.dropWhile_cons]
    by_cases hp : p x = true
    · rw [if_pos hp]; exact ih
    · rw [if_neg hp, List.dropWhile_cons, if_neg hp]

theorem dropWhile_eq_self_of_isPre (p : Nat → Bool) (a b : Str)
    (hfix : a.dropWhile p = a) (hab : ∃ t, a = b ++ t) : b.dropWhile p = b := by
  obtain ⟨t, ht⟩ := hab
  cases b with
  | nil => rfl
  | cons x b2 =>
    have hx : p x = false := by
      by_contra hpx
      have hpx2 : p x = true := by revert hpx; cases p x <;> simp
      have h1 : a.dropWhile p = (b2 ++ t).dropWhile p := by
        rw [ht, List.cons_append, List.dropWhile_cons, if_pos hpx2]
      have h2 : ((b2 ++ t).dropWhile p).length ≤ (b2 ++ t).length :=
        (List.dropWhile_suffix p).length_le
      rw [hfix, ht] at h1
      have hlen := congrArg List.length h1
      simp only [List.cons_append, List.length_cons, List.length_append] at hlen h2
      omega
    rw [List.dropWhile_cons, if_neg (by simp [hx])]

theorem pyStrip_idem (s : Str) : pyStrip (pyStrip s) = pyStrip s := by
  unfold pyStrip
  set p := isSpaceChar
  set a := s.dropWhile p with ha
  set r := a.reverse.dropWhile p with hr
  have hfix_a : a.dropWhile p = a := dropWhile_dropWhile p s
  have hfix_r : r.dropWhile p = r := by rw [hr]; exact dropWhile_dropWhile p a.reverse
  have hpre : ∃ t, a = r.reverse ++ t := by
    have hs : r <:+ a.reverse := by rw [hr]; exact List.dropWhile_suffix p
    have hp2 : r.reverse <+: a := List.reverse_suffix.mp (by simpa using hs)
    obtain ⟨t, ht⟩ := hp2
    exact ⟨t, ht.symm⟩
  have h1 : r.reverse.dropWhile p = r.reverse :=
    dropWhile_eq_self_of_isPre p a r.reverse hfix_a hpre
  rw [h1, List.reverse_reverse, hfix_r]

theorem pyStrip_pyUpper (s : Str) : pyStrip (pyUpper s) = pyUpper (pyStrip s) := by
  have hpf : (isSpaceChar ∘ pyUpperChar) = isSpaceChar := funext isSpaceChar_pyUpperChar
  unfold pyStrip pyUpper
  rw [List.dropWhile_map, hpf, ← List.map_reverse, List.dropWhile_map, hpf, ← List.map_reverse]

theorem pyStrip_canon (x : Str) :
    pyStrip (pyUpper (pyStrip x)) = pyUpper (pyStrip x) := by
  rw [pyStrip_pyUpper, pyStrip_idem]

theorem pyUpper_canon (x : Str) :
    pyUpper (pyUpper (pyStrip x)) = pyUpper (pyStrip x) := pyUpper_idem _

theorem normAux_mem (y : Str) (l : List Str) : ∀ acc, y ∈ normAux acc l →
    y ∈ acc ∨ ∃ x ∈ l, pyStrip x ≠ [] ∧ y = pyUpper (pyStrip x) := by
  induction l with
  | nil => intro acc h; exact .inl h
  | cons s rest ih =>
    intro acc h
    simp only [normAux] at h
    by_cases hb : pyStrip s = []
    · rw [if_pos hb] at h
      rcases ih acc h with h1 | ⟨x, hx, hx2⟩
      · exact .inl h1
      · exact .inr ⟨x, List.mem_cons_of_mem _ hx, hx2⟩
    · rw [if_neg hb] at h
      by_cases hm : pyUpper (pyStrip s) ∈ acc
      · rw [if_pos hm] at h
        rcases ih acc h with h1 | ⟨x, hx, hx2⟩
        · exact .inl h1
        · exact .inr ⟨x, List.mem_cons_of_mem _ hx, hx2⟩
      · rw [if_neg hm] at h
        rcases ih _ h with h1 | ⟨x, hx, hx2⟩
        · rcases List.mem_append.mp h1 with h2 | h2
          · exact .inl h2
          · exact .inr ⟨s, List.mem_cons_self _ _, hb, by simpa using h2⟩
        · exact .inr ⟨x, List.mem_cons_of_mem _ hx, hx2⟩

theorem normAux_nodup (l : List Str) : ∀ acc, acc.Nodup → (normAux acc l).Nodup := by
  induction l with
  | nil => intro acc h; exact h
  | cons s rest ih =>
    intro acc hacc
    simp only [normAux]
    by_cases hb : pyStrip s = []
    · rw [if_pos hb]; exact ih acc hacc
    · rw [if_neg hb]
      by_cases hm : pyUpper (pyStrip s) ∈ acc
      · rw [if_pos hm]; exact ih acc hacc
      · rw [if_neg hm]
        exact ih _ (by simp [List.nodup_append, hacc, hm])

theorem normalize_symbols_nodup (xs : List Str) : (normalize_symbols xs).Nodup :=
  normAux_nodup xs [] List.nodup_nil

theorem normalize_symbols_mem (y : Str) (xs : List Str) (h : y ∈ normalize_symbols xs) :
    ∃ x ∈ xs, pyStrip x ≠ [] ∧ y = pyUpper (pyStrip x) := by
  rcases normAux_mem y xs [] h with h1 | h1
  · exact absurd h1 (List.not_mem_nil y)
  · exact h1

theorem normalize_symbols_fixed (y : Str) (xs : List Str) (h : y ∈ normalize_symbols xs) :
    pyStrip y = y ∧ pyUpper y = y ∧ y ≠ [] := by
  obtain ⟨x, -, hx, rfl⟩ := normalize_symbols_mem y xs h
  refine ⟨pyStrip_canon x, pyUpper_canon x, ?_⟩
  simp only [pyUpper, ne_eq, List.map_eq_nil_iff]
  exact hx

theorem normalize_symbols_ne_tsCol (y : Str) (xs : List Str)
    (h : y ∈ normalize_symbols xs) : y ≠ tsCol := by
  intro hy
  have h2 := (normalize_symbols_fixed y xs h).2.1
  rw [hy] at h2
  exact absurd h2 (by decide)

theorem normAux_fixed_eq (l : List Str) : ∀ acc,
    (∀ y ∈ l, pyStrip y = y ∧ pyUpper y = y ∧ y ≠ []) →
    (∀ y ∈ l, y ∉ acc) → l.Nodup → normAux acc l = acc ++ l := by
  induction l with
  | nil => intro acc _ _ _; simp [normAux]
  | cons y t ih =>
    intro acc hfix hdisj hnd
    obtain ⟨hstrip, hupper, hne⟩ := hfix y (List.mem_cons_self _ _)
    simp only [normAux]
    rw [if_neg (by rw [hstrip]; exact hne), hstrip, hupper,
      if_neg (hdisj y (List.mem_cons_self _ _))]
    rw [ih (acc ++ [y]) (fun z hz => hfix z (List.mem_cons_of_mem _ hz))
      (fun z hz => by
        simp only [List.mem_append, List.mem_singleton, not_or]
        exact ⟨hdisj z (List.mem_cons_of_mem _ hz),
          fun he => (List.nodup_cons.mp hnd).1 (he ▸ hz)⟩)
      (List.nodup_cons.mp hnd).2]
    simp

theorem normalize_symbols_idem (xs : List Str) :
    normalize_symbols (normalize_symbols xs) = normalize_symbols xs := by
  have h := normAux_fixed_eq (normalize_symbols xs) []
    (fun y hy => normalize_symbols_fixed y xs hy)
    (fun y _ => List.not_mem_nil y) (normalize_symbols_nodup xs)
  simpa [normalize_symbols] using h

theorem normAux_dedup (l : List Str) : ∀ acc,
    normAux acc l = acc ++ (dedupKeepFirst ((l.filter (fun s => decide (pyStrip s ≠ []))).map
      (fun s => pyUpper (pyStrip s)))).filter (fun y => decide (y ∉ acc)) := by
  induction l with
  | nil => intro acc; simp [normAux, dedupKeepFirst]
  | cons s t ih =>
    intro acc
    simp only [normAux]
    by_cases hb : pyStrip s = []
    · rw [if_pos hb, ih acc, List.filter_cons, if_neg (by simp [hb])]
    · rw [if_neg hb]
      by_cases hm : pyUpper (pyStrip s) ∈ acc
      · rw [if_pos hm, ih acc, List.filter_cons, if_pos (by simp [hb]), List.map_cons]
        simp only [dedupKeepFirst]
        rw [List.filter_cons, if_neg (by simp [hm]), List.filter_filter]
        congr 1
        apply List.filter_congr
        intro y _
        by_cases hys : y = pyUpper (pyStrip s)
        · subst hys; simp [hm]
        · simp [hys]
      · rw [if_neg hm, ih (acc ++ [pyUpper (pyStrip s)]),
          List.filter_cons, if_pos (by simp [hb]), List.map_cons]
        simp only [dedupKeepFirst]
        rw [List.filter_cons, if_pos (by simp [hm]), List.append_assoc]
        congr 1
        rw [List.singleton_append, List.filter_filter]
        congr 1
        apply List.filter_congr
        intro y _
        by_cases h1 : y ∈ acc <;> by_cases h2 : y = pyUpper (pyStrip s) <;>
          simp [h1, h2]

theorem alookup_append {β : Type} (l₁ l₂ : List (Str × β)) (k : Str) :
    alookup (l₁ ++ l₂) k = (alookup l₁ k).or (alookup l₂ k) := by
  induction l₁ with
  | nil => simp [alookup]
  | cons p t ih =>
    obtain ⟨a, b⟩ := p
    simp only [List.cons_append, alookup]
    by_cases h : k = a
    · simp [h]
    · simp [h, ih]

theorem alookup_eq_none_of_not_mem {β : Type} (l : List (Str × β)) (k : Str)
    (h : k ∉ l.map Prod.fst) : alookup l k = none := by
  induction l with
  | nil => rfl
  | cons p t ih =>
    obtain ⟨a, b⟩ := p
    simp only [List.map_cons, List.mem_cons, not_or] at h
    simp only [alookup]
    rw [if_neg h.1]
    exact ih h.2

theorem alookup_mem {β : Type} {l : List (Str × β)} {k : Str} {v : β}
    (h : alookup l k = some v) : (k, v) ∈ l := by
  induction l with
  | nil => simp [alookup] at h
  | cons p t ih =>
    obtain ⟨a, b⟩ := p
    simp only [alookup] at h
    by_cases hk : k = a
    · rw [if_pos hk] at h
      obtain rfl := Option.some_injective _ h
      exact hk ▸ List.mem_cons_self _ _
    · rw [if_neg hk] at h
      exact List.mem_cons_of_mem _ (ih h)

theorem alookup_reverse {β : Type} (l : List (Str × β)) (k : Str)
    (hnd : (l.map Prod.fst).Nodup) : alookup l.reverse k = alookup l k := by
  induction l with
  | nil => rfl
  | cons p t ih =>
    obtain ⟨a, b⟩ := p
    simp only [List.map_cons, List.nodup_cons] at hnd
    rw [List.reverse_cons, alookup_append]
    by_cases h : k = a
    · subst h
      rw [alookup_eq_none_of_not_mem]
      · simp [alookup]
      · simpa using hnd.1
    · rw [ih hnd.2]
      simp only [alookup]
      rw [if_neg h]
      cases hl : alookup t k with
      | none => simp [alookup, if_neg h]
      | some v => simp [h]

theorem map_alookup_zip (h₂ : List Str) : ∀ (r₂ h₁ r₁ : List Str),
    (h₁ ++ h₂).Nodup → h₁.length = r₁.length → h₂.length = r₂.length →
    h₂.map (fun c => (alookup ((h₁ ++ h₂).zip (r₁ ++ r₂)) c).getD []) = r₂ := by
  induction h₂ with
  | nil =>
    intro r₂ h₁ r₁ _ _ hl2
    cases r₂ with
    | nil => rfl
    | cons b s => simp at hl2
  | cons c t ih =>
    intro r₂ h₁ r₁ hnd hl1 hl2
    cases r₂ with
    | nil => simp at hl2
    | cons b s =>
      rw [List.map_cons]
      have hassoc : h₁ ++ c :: t = (h₁ ++ [c]) ++ t := by simp
      have hrassoc : r₁ ++ b :: s = (r₁ ++ [b]) ++ s := by simp
      congr 1
      · rw [List.zip_append hl1, alookup_append]
        rw [alookup_eq_none_of_not_mem]
        · simp [alookup]
        · rw [List.map_fst_zip _ _ (le_of_eq hl1)]
          have := (List.nodup_append.mp hnd).2.2
          intro hc
          exact this hc (List.mem_cons_self _ _)
      · rw [hassoc, hrassoc]
        exact ih s (h₁ ++ [c]) (r₁ ++ [b]) (by rw [← hassoc]; exact hnd)
          (by simp [hl1]) (by simpa using hl2)

theorem rowGet_map_self (hdr r : List Str) (hnd : hdr.Nodup) (hlen : r.length = hdr.length) :
    hdr.map (rowGet hdr r) = r := by
  unfold rowGet
  have hpad : hdr.length - r.length = 0 := by omega
  have hk : ((hdr.zip r).map Prod.fst).Nodup := by
    rw [List.map_fst_zip _ _ (le_of_eq hlen.symm)]
    exact hnd
  simp only [hpad, List.replicate_zero, List.append_nil]
  simp only [show ∀ k, alookup (hdr.zip r).reverse k = alookup (hdr.zip r) k from
    fun k => alookup_reverse _ k hk]
  have := map_alookup_zip hdr r [] [] (by simpa using hnd) rfl hlen.symm
  simpa using this

theorem rowGet_not_mem (hdr r : List Str) (c : Str) (hc : c ∉ hdr) : rowGet hdr r c = [] := by
  unfold rowGet
  rw [alookup_eq_none_of_not_mem]
  · rfl
  · rw [List.map_reverse, List.map_fst_zip]
    · simpa using hc
    · simp only [List.length_append, List.length_replicate]
      omega

theorem alookup_zip_map (l : List Str) (f : Str → Str) (c : Str) (hc : c ∈ l) :
    alookup (l.zip (l.map f)) c = some (f c) := by
  induction l with
  | nil => simp at hc
  | cons a t ih =>
    simp only [List.map_cons, List.zip_cons_cons, alookup]
    by_cases h : c = a
    · simp [h]
    · rw [if_neg h]
      exact ih (List.mem_of_ne_of_mem h hc)

theorem rowGet_cons_map (t0 : Str) (l : List Str) (v : Str) (f : Str → Str) (c : Str)
    (hnd : (t0 :: l).Nodup) (hc : c ∈ l) :
    rowGet (t0 :: l) (v :: l.map f) c = f c := by
  unfold rowGet
  have hlen : (t0 :: l).length - (v :: l.map f).length = 0 := by simp
  have hk : (((t0 :: l).zip (v :: l.map f)).map Prod.fst).Nodup := by
    rw [List.map_fst_zip _ _ (by simp)]
    exact hnd
  rw [hlen]
  simp only [List.replicate_zero, List.append_nil]
  rw [alookup_reverse _ _ hk]
  simp only [List.zip_cons_cons, alookup]
  rw [if_neg (show ¬c = t0 from fun he => (List.nodup_cons.mp hnd).1 (he ▸ hc))]
  show (alookup (l.zip (List.map f l)) c).getD [] = f c
  rw [alookup_zip_map l f c hc]
  rfl

theorem old_cols_eq (cols : List Str) (h : ∀ c ∈ cols, c ≠ [] ∧ c ≠ tsCol) :
    (tsCol :: cols).filter (fun c => decide (c ≠ [] ∧ c ≠ tsCol)) = cols := by
  rw [List.filter_cons, if_neg (by simp)]
  exact List.filter_eq_self.mpr (fun c hc => by simpa using h c hc)

theorem ensure_none (ts : Str) (syms : List Str) (pm : List (Str × Str)) :
    ensure_header_and_append_row none ts syms pm
      = freshRecords ts (normalize_symbols syms) pm := rfl

theorem ensure_empty_file (ts : Str) (syms : List Str) (pm : List (Str × Str)) :
    ensure_header_and_append_row (some []) ts syms pm
      = freshRecords ts (normalize_symbols syms) pm := rfl

theorem ensure_blank_header (rows : List (List Str)) (ts : Str) (syms : List Str)
    (pm : List (Str × Str)) :
    ensure_header_and_append_row (some ([] :: rows)) ts syms pm
      = freshRecords ts (normalize_symbols syms) pm := by
  simp [ensure_header_and_append_row]

theorem ensure_append_path (cols : List Str) (rows : List (List Str)) (ts : Str)
    (syms : List Str) (pm : List (Str × Str)) (hcols : ∀ c ∈ cols, c ≠ [] ∧ c ≠ tsCol)
    (hall : newColsOf cols syms = []) :
    ensure_header_and_append_row (some ((tsCol :: cols) :: rows)) ts syms pm
      = (tsCol :: cols) :: rows ++ [ts :: cols.map (fun c => lookupD pm c)] := by
  simp only [ensure_header_and_append_row]
  rw [if_neg (by simp), old_cols_eq cols hcols]
  rw [show List.filter (fun c => decide (c ∉ cols)) (normalize_symbols syms) = [] from hall]
  rw [List.append_nil, if_pos rfl]

theorem ensure_growth_path (cols : List Str) (rows : List (List Str)) (ts : Str)
    (syms : List Str) (pm : List (Str × Str)) (hnd : cols.Nodup)
    (hcols : ∀ c ∈ cols, c ≠ [] ∧ c ≠ tsCol)
    (hrows : ∀ r ∈ rows, r.length = cols.length + 1)
    (hne : newColsOf cols syms ≠ []) :
    ensure_header_and_append_row (some ((tsCol :: cols) :: rows)) ts syms pm
      = (tsCol :: (cols ++ newColsOf cols syms)) ::
          rows.map (fun r => r ++ List.replicate (newColsOf cols syms).length []) ++
          [ts :: (cols ++ newColsOf cols syms).map (fun c => lookupD pm c)] := by
  simp only [ensure_header_and_append_row]
  rw [if_neg (by simp), old_cols_eq cols hcols]
  rw [show List.filter (fun c => decide (c ∉ cols)) (normalize_symbols syms)
        = newColsOf cols syms from rfl]
  rw [if_neg (by
    intro h
    injection h with h1 h2
    exact hne (List.append_right_eq_self.mp h2))]
  rw [show List.filter (fun r => decide (r ≠ [])) rows = rows from
    List.filter_eq_self.mpr (fun r hr => by
      have hl := hrows r hr
      simp only [ne_eq, decide_eq_true_eq]
      intro h0
      rw [h0] at hl
      simp at hl)]
  congr 1
  congr 1
  apply List.map_congr_left
  intro r hr
  have hlen := hrows r hr
  have hndh : (tsCol :: cols).Nodup := by
    rw [List.nodup_cons]
    exact ⟨fun h => (hcols tsCol h).2 rfl, hnd⟩
  have h1 : (tsCol :: cols).map (rowGet (tsCol :: cols) r) = r :=
    rowGet_map_self _ r hndh (by simp [hlen])
  have h2 : ∀ c ∈ newColsOf cols syms, rowGet (tsCol :: cols) r c = [] := by
    intro c hc
    apply rowGet_not_mem
    simp only [newColsOf, List.mem_filter] at hc
    obtain ⟨hcn, hcc⟩ := hc
    simp only [List.mem_cons, not_or]
    exact ⟨normalize_symbols_ne_tsCol c syms hcn, by simpa using hcc⟩
  calc (tsCol :: (cols ++ newColsOf cols syms)).map (rowGet (tsCol :: cols) r)
      = ((tsCol :: cols) ++ newColsOf cols syms).map (rowGet (tsCol :: cols) r) := by simp
    _ = r ++ (newColsOf cols syms).map (rowGet (tsCol :: cols) r) := by
          rw [List.map_append, h1]
    _ = r ++ (newColsOf cols syms).map (fun _ => ([] : Str)) :=
          congrArg (fun x => r ++ x) (List.map_congr_left h2)
    _ = r ++ List.replicate (newColsOf cols syms).length [] := by rw [List.map_const']

theorem fresh_header_nodup (syms : List Str) : (tsCol :: normalize_symbols syms).Nodup := by
  rw [List.nodup_cons]
  exact ⟨fun h => normalize_symbols_ne_tsCol tsCol syms h rfl, normalize_symbols_nodup syms⟩

theorem newColsOf_sub (cols syms : List Str) (c : Str) (hc : c ∈ newColsOf cols syms) :
    c ∈ normalize_symbols syms ∧ c ∉ cols := by
  simp only [newColsOf, List.mem_filter, decide_eq_true_eq] at hc
  exact hc

theorem union_nodup (cols syms : List Str) (hwf : WFHeaderCols cols) :
    (tsCol :: (cols ++ newColsOf cols syms)).Nodup := by
  rw [List.nodup_cons]
  constructor
  · intro h
    rcases List.mem_append.mp h with h1 | h1
    · exact (hwf.2 tsCol h1).2 rfl
    · exact normalize_symbols_ne_tsCol tsCol syms (newColsOf_sub cols syms tsCol h1).1 rfl
  · rw [List.nodup_append]
    refine ⟨hwf.1, List.Nodup.filter _ (normalize_symbols_nodup syms), ?_⟩
    intro a ha hna
    exact (newColsOf_sub cols syms a hna).2 ha

theorem lookupD_not_requested (pm : List (Str × Str)) (syms : List Str) (c : Str)
    (hpm : ∀ p ∈ pm, p.1 ∈ normalize_symbols syms) (hc : c ∉ normalize_symbols syms) :
    lookupD pm c = [] := by
  unfold lookupD
  cases h : alookup pm c with
  | none => rfl
  | some v => exact absurd (hpm _ (alookup_mem h)) hc

theorem collectQuotes_mem (p : Str × PyFloat) (l : List Str) :
    ∀ (q : List (Str × RawQuote)), p ∈ collectQuotes l q →
      p.1 ∈ l ∧ (alookup q p.1).getD .missingItem = .price p.2 := by
  induction l with
  | nil => intro q h; simp [collectQuotes] at h
  | cons s rest ih =>
    intro q h
    simp only [collectQuotes] at h
    split at h
    · rename_i v heq
      rcases List.mem_cons.mp h with h1 | h1
      · subst h1
        exact ⟨List.mem_cons_self _ _, heq⟩
      · obtain ⟨ih1, ih2⟩ := ih q h1
        exact ⟨List.mem_cons_of_mem _ ih1, ih2⟩
    · obtain ⟨ih1, ih2⟩ := ih q h
      exact ⟨List.mem_cons_of_mem _ ih1, ih2⟩

theorem collectQuotes_not_mem (s : Str) (l : List Str) :
    ∀ (q : List (Str × RawQuote)), s ∉ l → alookup (collectQuotes l q) s = none := by
  induction l with
  | nil => intro q _; rfl
  | cons a rest ih =>
    intro q hs
    simp only [List.mem_cons, not_or] at hs
    simp only [collectQuotes]
    split
    · simp only [alookup]
      rw [if_neg hs.1]
      exact ih q hs.2
    · exact ih q hs.2

theorem collectQuotes_skip (l : List Str) (q : List (Str × RawQuote)) (s : Str)
    (hnd : l.Nodup) (hs : s ∈ l)
    (hq : ∀ v, (alookup q s).getD .missingItem ≠ .price v) :
    alookup (collectQuotes l q) s = none := by
  induction l with
  | nil => simp at hs
  | cons a rest ih =>
    obtain ⟨hna, hndr⟩ := List.nodup_cons.mp hnd
    simp only [collectQuotes]
    by_cases hsa : s = a
    · subst hsa
      split
      · rename_i v heq
        exact absurd heq (hq v)
      · exact collectQuotes_not_mem s rest q hna
    · have hsr : s ∈ rest := List.mem_of_ne_of_mem hsa hs
      split
      · simp only [alookup]
        rw [if_neg hsa]
        exact ih hndr hsr
      · exact ih hndr hsr

/-!
## Claim theorems
-/

/-- C1: for an existing ledger file whose header starts with the timestamp column
(followed by well-formed columns) and a request whose normalized symbol list
contains at least one symbol that is not already a column, the reconciler
produces the header `timestamp :: oldColumns ++ newColumns` (old order kept, new
columns in normalized request order at the end), rewrites every pre-existing row
with its old cell values followed by empty strings for each new column, and
appends one row for the given timestamp. -/
theorem ensure_schema_growth (cols : List Str) (rows : List (List Str)) (ts : Str)
    (syms : List Str) (pm : List (Str × Str)) (hwf : WFHeaderCols cols)
    (hrows : ∀ r ∈ rows, r.length = cols.length + 1)
    (hnew : ∃ s ∈ normalize_symbols syms, s ∉ cols) :
    ensure_header_and_append_row (some ((tsCol :: cols) :: rows)) ts syms pm
      = (tsCol :: (cols ++ newColsOf cols syms)) ::
          rows.map (fun r => r ++ List.replicate (newColsOf cols syms).length []) ++
          [ts :: (cols ++ newColsOf cols syms).map (fun c => lookupD pm c)] := by
  apply ensure_growth_path cols rows ts syms pm hwf.1 hwf.2 hrows
  obtain ⟨s, hs1, hs2⟩ := hnew
  intro h
  have hmem : s ∈ newColsOf cols syms := by
    simp only [newColsOf, List.mem_filter, decide_eq_true_eq]
    exact ⟨hs1, hs2⟩
  rw [h] at hmem
  simp at hmem

/-- Witness for C1 at a concrete ledger: header `timestamp,BTC,ETH`, one prior
row, request `["ada","BTC"]`. -/
theorem ensure_schema_growth_witness :
    WFHeaderCols [chars "BTC", chars "ETH"]
      ∧ (∀ r ∈ [[chars "T0", chars "1.5", chars "2.5"]],
          List.length r = [chars "BTC", chars "ETH"].length + 1)
      ∧ (∃ s ∈ normalize_symbols [chars "ada", chars "BTC"], s ∉ [chars "BTC", chars "ETH"])
      ∧ ensure_header_and_append_row
          (some ((tsCol :: [chars "BTC", chars "ETH"]) :: [[chars "T0", chars "1.5", chars "2.5"]]))
          (chars "T1") [chars "ada", chars "BTC"] [(chars "ADA", chars "3.5")]
        = (tsCol :: ([chars "BTC", chars "ETH"]
              ++ newColsOf [chars "BTC", chars "ETH"] [chars "ada", chars "BTC"])) ::
            [[chars "T0", chars "1.5", chars "2.5"]].map
              (fun r => r ++ List.replicate
                (newColsOf [chars "BTC", chars "ETH"] [chars "ada", chars "BTC"]).length []) ++
            [chars "T1" :: ([chars "BTC", chars "ETH"]
              ++ newColsOf [chars "BTC", chars "ETH"] [chars "ada", chars "BTC"]).map
                (fun c => lookupD [(chars "ADA", chars "3.5")] c)] :=
  ⟨⟨by decide, by decide⟩, by decide, by decide,
    ensure_schema_growth [chars "BTC", chars "ETH"] [[chars "T0", chars "1.5", chars "2.5"]]
      (chars "T1") [chars "ada", chars "BTC"] [(chars "ADA", chars "3.5")]
      ⟨by decide, by decide⟩ (by decide) (by decide)⟩

/-- C4: when the existing well-formed header already contains every normalized
request symbol, the reconciler keeps the header and every existing record
unchanged and appends exactly one row whose non-timestamp cells come from the
price map (empty string when absent). -/
theorem ensure_append_only (cols : List Str) (rows : List (List Str)) (ts : Str)
    (syms : List Str) (pm : List (Str × Str)) (hwf : WFHeaderCols cols)
    (hsub : ∀ s ∈ normalize_symbols syms, s ∈ cols) :
    ensure_header_and_append_row (some ((tsCol :: cols) :: rows)) ts syms pm
      = (tsCol :: cols) :: rows ++ [ts :: cols.map (fun c => lookupD pm c)] := by
  apply ensure_append_path cols rows ts syms pm hwf.2
  simp only [newColsOf, List.filter_eq_nil_iff, decide_eq_true_eq]
  intro c hc h
  exact h (hsub c hc)

/-- Witness for C4: header `timestamp,BTC,ETH`, request `["eth"]`. -/
theorem ensure_append_only_witness :
    WFHeaderCols [chars "BTC", chars "ETH"]
      ∧ (∀ s ∈ normalize_symbols [chars "eth"], s ∈ [chars "BTC", chars "ETH"])
      ∧ ensure_header_and_append_row
          (some ((tsCol :: [chars "BTC", chars "ETH"]) :: [[chars "T0", chars "1.5", chars "2.5"]]))
          (chars "T1") [chars "eth"] [(chars "ETH", chars "9.0")]
        = (tsCol :: [chars "BTC", chars "ETH"]) :: [[chars "T0", chars "1.5", chars "2.5"]]
            ++ [chars "T1" :: [chars "BTC", chars "ETH"].map
                (fun c => lookupD [(chars "ETH", chars "9.0")] c)] :=
  ⟨⟨by decide, by decide⟩, by decide,
    ensure_append_only [chars "BTC", chars "ETH"] [[chars "T0", chars "1.5", chars "2.5"]]
      (chars "T1") [chars "eth"] [(chars "ETH", chars "9.0")] ⟨by decide, by decide⟩ (by decide)⟩

/-- C5: the normalizer equals first-occurrence deduplication of the
trimmed-and-uppercased non-blank entries; its output has no duplicates and every
output entry is the trimmed uppercased form of some input entry; the empty input
gives the empty output, and `["btc", " ETH", "BTC"]` maps to `["BTC", "ETH"]`. -/
theorem normalize_symbols_spec (xs : List Str) :
    normalize_symbols xs
        = dedupKeepFirst ((xs.filter (fun s => decide (pyStrip s ≠ []))).map
            (fun s => pyUpper (pyStrip s)))
      ∧ (normalize_symbols xs).Nodup
      ∧ (∀ y ∈ normalize_symbols xs, ∃ x ∈ xs, pyStrip x ≠ [] ∧ y = pyUpper (pyStrip x))
      ∧ normalize_symbols ([] : List Str) = []
      ∧ normalize_symbols [chars "btc", chars " ETH", chars "BTC"]
          = [chars "BTC", chars "ETH"] := by
  refine ⟨?_, normalize_symbols_nodup xs, fun y hy => normalize_symbols_mem y xs hy,
    rfl, by decide⟩
  have h := normAux_dedup xs []
  simpa [normalize_symbols] using h

/-- Witness for C5 at the spec's example input. -/
theorem normalize_symbols_spec_witness :
    chars "BTC" ∈ normalize_symbols [chars "btc", chars " ETH", chars "BTC"]
      ∧ ∃ x ∈ [chars "btc", chars " ETH", chars "BTC"],
          pyStrip x ≠ [] ∧ chars "BTC" = pyUpper (pyStrip x) :=
  ⟨by decide,
    (normalize_symbols_spec [chars "btc", chars " ETH", chars "BTC"]).2.2.1
      (chars "BTC") (by decide)⟩

/-- C10: the normalizer is idempotent, and hence the reconciler gives the same
result on raw and on already-normalized symbol lists. -/
theorem normalize_symbols_idempotent (xs : List Str) :
    normalize_symbols (normalize_symbols xs) = normalize_symbols xs
      ∧ ∀ (file : Option (List (List Str))) (ts : Str) (pm : List (Str × Str)),
          ensure_header_and_append_row file ts (normalize_symbols xs) pm
            = ensure_header_and_append_row file ts xs pm := by
  refine ⟨normalize_symbols_idem xs, fun file ts pm => ?_⟩
  simp only [ensure_header_and_append_row, normalize_symbols_idem xs]

/-- C2: a later run never removes or reorders existing columns — the new header
is the old header extended at the end — and for each historical column omitted
from today's normalized request (the price map covering only requested symbols,
per the PriceMap contract) the appended row carries the empty string in that
column. -/
theorem ensure_column_stability (cols : List Str) (rows : List (List Str)) (ts : Str)
    (syms : List Str) (pm : List (Str × Str)) (hwf : WFHeaderCols cols)
    (hrows : ∀ r ∈ rows, r.length = cols.length + 1)
    (hpm : ∀ p ∈ pm, p.1 ∈ normalize_symbols syms) :
    ∃ mid, ensure_header_and_append_row (some ((tsCol :: cols) :: rows)) ts syms pm
        = (tsCol :: (cols ++ newColsOf cols syms)) :: mid
            ++ [ts :: (cols ++ newColsOf cols syms).map (fun c => lookupD pm c)]
      ∧ ∀ c ∈ cols, c ∉ normalize_symbols syms →
          rowGet (tsCol :: (cols ++ newColsOf cols syms))
            (ts :: (cols ++ newColsOf cols syms).map (fun c => lookupD pm c)) c = [] := by
  have hcell : ∀ c ∈ cols, c ∉ normalize_symbols syms →
      rowGet (tsCol :: (cols ++ newColsOf cols syms))
        (ts :: (cols ++ newColsOf cols syms).map (fun c => lookupD pm c)) c = [] := by
    intro c hc hcn
    rw [rowGet_cons_map tsCol (cols ++ newColsOf cols syms) ts (fun c => lookupD pm c) c
      (union_nodup cols syms hwf) (List.mem_append.mpr (.inl hc))]
    exact lookupD_not_requested pm syms c hpm hcn
  by_cases hnc : newColsOf cols syms = []
  · refine ⟨rows, ?_, hcell⟩
    rw [hnc, List.append_nil]
    exact ensure_append_path cols rows ts syms pm hwf.2 hnc
  · exact ⟨_, ensure_growth_path cols rows ts syms pm hwf.1 hwf.2 hrows hnc, hcell⟩

/-- Witness for C2: header `timestamp,BTC,ETH`, request `["eth"]` omitting the
historical column `BTC`. -/
theorem ensure_column_stability_witness :
    WFHeaderCols [chars "BTC", chars "ETH"]
      ∧ (∀ r ∈ [[chars "T0", chars "1.5", chars "2.5"]],
          List.length r = [chars "BTC", chars "ETH"].length + 1)
      ∧ (∀ p ∈ [(chars "ETH", chars "9.0")], p.1 ∈ normalize_symbols [chars "eth"])
      ∧ ∃ mid, ensure_header_and_append_row
            (some ((tsCol :: [chars "BTC", chars "ETH"]) :: [[chars "T0", chars "1.5", chars "2.5"]]))
            (chars "T1") [chars "eth"] [(chars "ETH", chars "9.0")]
          = (tsCol :: ([chars "BTC", chars "ETH"]
                ++ newColsOf [chars "BTC", chars "ETH"] [chars "eth"])) :: mid
              ++ [chars "T1" :: ([chars "BTC", chars "ETH"]
                ++ newColsOf [chars "BTC", chars "ETH"] [chars "eth"]).map
                  (fun c => lookupD [(chars "ETH", chars "9.0")] c)]
        ∧ ∀ c ∈ [chars "BTC", chars "ETH"], c ∉ normalize_symbols [chars "eth"] →
            rowGet (tsCol :: ([chars "BTC", chars "ETH"]
                ++ newColsOf [chars "BTC", chars "ETH"] [chars "eth"]))
              (chars "T1" :: ([chars "BTC", chars "ETH"]
                ++ newColsOf [chars "BTC", chars "ETH"] [chars "eth"]).map
                  (fun c => lookupD [(chars "ETH", chars "9.0")] c)) c = [] :=
  ⟨⟨by decide, by decide⟩, by decide, by decide,
    ensure_column_stability [chars "BTC", chars "ETH"] [[chars "T0", chars "1.5", chars "2.5"]]
      (chars "T1") [chars "eth"] [(chars "ETH", chars "9.0")]
      ⟨by decide, by decide⟩ (by decide) (by decide)⟩

/-- C3: when the file is absent, empty, or has a blank first line, the reconciler
writes exactly a header `timestamp :: normalized symbols` and one row whose
timestamp cell is the given timestamp and whose symbol cells are the mapped
price when present and the empty string otherwise; in particular symbols
`["BTC","ETH"]` with prices `{BTC: 50000.0}` and timestamp `T1` yield the lines
`timestamp,BTC,ETH` and `T1,50000.0,`. -/
theorem ensure_fresh_file (ts : Str) (syms : List Str) (pm : List (Str × Str)) :
    (ensure_header_and_append_row none ts syms pm
        = [tsCol :: normalize_symbols syms,
           ts :: (normalize_symbols syms).map (fun s => lookupD pm s)])
      ∧ (ensure_header_and_append_row (some []) ts syms pm
        = [tsCol :: normalize_symbols syms,
           ts :: (normalize_symbols syms).map (fun s => lookupD pm s)])
      ∧ (∀ rows, ensure_header_and_append_row (some ([] :: rows)) ts syms pm
        = [tsCol :: normalize_symbols syms,
           ts :: (normalize_symbols syms).map (fun s => lookupD pm s)])
      ∧ (∀ s ∈ normalize_symbols syms,
          (alookup pm s = none → lookupD pm s = [])
            ∧ ∀ v, alookup pm s = some v → lookupD pm s = v)
      ∧ ensure_header_and_append_row none (chars "T1") [chars "BTC", chars "ETH"]
            [(chars "BTC", chars "50000.0")]
          = [[tsCol, chars "BTC", chars "ETH"], [chars "T1", chars "50000.0", []]] := by
  refine ⟨rfl, rfl, fun rows => ensure_blank_header rows ts syms pm, ?_, by decide⟩
  intro s _
  exact ⟨fun h => by simp [lookupD, h], fun v h => by simp [lookupD, h]⟩

/-- Witness for C3 at the spec's example: the `BTC` cell of the fresh row is the
mapped price. -/
theorem ensure_fresh_file_witness :
    lookupD [(chars "BTC", chars "50000.0")] (chars "BTC") = chars "50000.0" :=
  ((ensure_fresh_file (chars "T1") [chars "BTC", chars "ETH"]
      [(chars "BTC", chars "50000.0")]).2.2.2.1 (chars "BTC") (by decide)).2
    (chars "50000.0") (by decide)

/-- C6: a requested symbol absent from the price map never fails the reconciler;
the appended row carries the empty string — not a missing cell — in that
symbol's column, whatever the prior file state. -/
theorem ensure_missing_price_empty_cell (file : Option (List (List Str))) (ts : Str)
    (syms : List Str) (pm : List (Str × Str)) (s : Str) (hwf : WFLedger file)
    (hs : s ∈ normalize_symbols syms) (hnone : alookup pm s = none) :
    ∃ hdr mid last, ensure_header_and_append_row file ts syms pm = hdr :: (mid ++ [last])
      ∧ rowGet hdr last s = [] := by
  have hfreshcell :
      rowGet (tsCol :: normalize_symbols syms)
        (ts :: (normalize_symbols syms).map (fun c => lookupD pm c)) s = [] := by
    rw [rowGet_cons_map _ _ _ _ s (fresh_header_nodup syms) hs]
    simp [lookupD, hnone]
  rcases file with _ | recs
  · exact ⟨_, [], _, rfl, hfreshcell⟩
  rcases recs with _ | ⟨hdr0, rows⟩
  · exact ⟨_, [], _, rfl, hfreshcell⟩
  simp only [WFLedger] at hwf
  rcases hwf with rfl | ⟨cols, rfl, hwfc, hrows⟩
  · exact ⟨_, [], _, ensure_blank_header rows ts syms pm, hfreshcell⟩
  by_cases hnc : newColsOf cols syms = []
  · have hsc : s ∈ cols := by
      by_contra hsc
      have hmem : s ∈ newColsOf cols syms := by
        simp only [newColsOf, List.mem_filter, decide_eq_true_eq]
        exact ⟨hs, hsc⟩
      rw [hnc] at hmem
      simp at hmem
    have hnd : (tsCol :: cols).Nodup :=
      List.nodup_cons.mpr ⟨fun h => (hwfc.2 _ h).2 rfl, hwfc.1⟩
    refine ⟨tsCol :: cols, rows, ts :: cols.map (fun c => lookupD pm c),
      ensure_append_path cols rows ts syms pm hwfc.2 hnc, ?_⟩
    rw [rowGet_cons_map _ _ _ _ s hnd hsc]
    simp [lookupD, hnone]
  · have hsu : s ∈ cols ++ newColsOf cols syms := by
      rcases Decidable.em (s ∈ cols) with h1 | h1
      · exact List.mem_append.mpr (.inl h1)
      · refine List.mem_append.mpr (.inr ?_)
        simp only [newColsOf, List.mem_filter, decide_eq_true_eq]
        exact ⟨hs, h1⟩
    refine ⟨tsCol :: (cols ++ newColsOf cols syms), _,
      ts :: (cols ++ newColsOf cols syms).map (fun c => lookupD pm c),
      ensure_growth_path cols rows ts syms pm hwfc.1 hwfc.2 hrows hnc, ?_⟩
    rw [rowGet_cons_map _ _ _ _ s (union_nodup cols syms hwfc) hsu]
    simp [lookupD, hnone]

/-- Witness for C6: fresh file, request `["BTC"]`, empty price map. -/
theorem ensure_missing_price_empty_cell_witness :
    ∃ hdr mid last,
      ensure_header_and_append_row none (chars "T1") [chars "BTC"] [] = hdr :: (mid ++ [last])
        ∧ rowGet hdr last (chars "BTC") = [] :=
  ensure_missing_price_empty_cell none (chars "T1") [chars "BTC"] [] (chars "BTC")
    trivial (by decide) (by decide)

/-- C8: every file the reconciler writes round-trips: re-projecting each written
row onto the file's own header (the `DictReader` view) gives back exactly the
written cells, including across a schema-growth rewrite. -/
theorem ensure_round_trip (file : Option (List (List Str))) (ts : Str) (syms : List Str)
    (pm : List (Str × Str)) (hwf : WFLedger file) :
    ∃ hdr rest, ensure_header_and_append_row file ts syms pm = hdr :: rest
      ∧ ∀ r ∈ rest, hdr.map (rowGet hdr r) = r := by
  have hfresh : ∀ r ∈ [ts :: (normalize_symbols syms).map (fun c => lookupD pm c)],
      (tsCol :: normalize_symbols syms).map (rowGet (tsCol :: normalize_symbols syms) r)
        = r := by
    intro r hr
    simp only [List.mem_singleton] at hr
    subst hr
    exact rowGet_map_self _ _ (fresh_header_nodup syms) (by simp)
  rcases file with _ | recs
  · exact ⟨_, _, rfl, hfresh⟩
  rcases recs with _ | ⟨hdr0, rows⟩
  · exact ⟨_, _, rfl, hfresh⟩
  simp only [WFLedger] at hwf
  rcases hwf with rfl | ⟨cols, rfl, hwfc, hrows⟩
  · exact ⟨_, _, ensure_blank_header rows ts syms pm, hfresh⟩
  by_cases hnc : newColsOf cols syms = []
  · have hnd : (tsCol :: cols).Nodup :=
      List.nodup_cons.mpr ⟨fun h => (hwfc.2 _ h).2 rfl, hwfc.1⟩
    refine ⟨tsCol :: cols, rows ++ [ts :: cols.map (fun c => lookupD pm c)],
      ensure_append_path cols rows ts syms pm hwfc.2 hnc, ?_⟩
    intro r hr
    rcases List.mem_append.mp hr with h1 | h1
    · exact rowGet_map_self _ _ hnd (by simp [hrows r h1])
    · simp only [List.mem_singleton] at h1
      subst h1
      exact rowGet_map_self _ _ hnd (by simp)
  · refine ⟨tsCol :: (cols ++ newColsOf cols syms), _,
      ensure_growth_path cols rows ts syms pm hwfc.1 hwfc.2 hrows hnc, ?_⟩
    intro r hr
    rcases List.mem_append.mp hr with h1 | h1
    · obtain ⟨r0, hr0, rfl⟩ := List.mem_map.mp h1
      refine rowGet_map_self _ _ (union_nodup cols syms hwfc) ?_
      have := hrows r0 hr0
      simp only [List.length_append, List.length_replicate, List.length_cons, this]
      omega
    · simp only [List.mem_singleton] at h1
      subst h1
      exact rowGet_map_self _ _ (union_nodup cols syms hwfc) (by simp)

/-- Witness for C8: schema growth from `timestamp,BTC` to `timestamp,BTC,ETH`. -/
theorem ensure_round_trip_witness :
    ∃ hdr rest,
      ensure_header_and_append_row
          (some [[tsCol, chars "BTC"], [chars "T0", chars "1.5"]])
          (chars "T1") [chars "ETH"] [(chars "ETH", chars "9.0")] = hdr :: rest
        ∧ ∀ r ∈ rest, hdr.map (rowGet hdr r) = r :=
  ensure_round_trip (some [[tsCol, chars "BTC"], [chars "T0", chars "1.5"]])
    (chars "T1") [chars "ETH"] [(chars "ETH", chars "9.0")]
    (Or.inr ⟨[chars "BTC"], rfl, ⟨by decide, by decide⟩, by decide⟩)

/-- C7: the fetcher fails with `ConfigError` when no (or an empty) API credential
is configured, with `InputError` when the credential is set but the normalized
symbol list is empty, with `NetworkError` on transport failure or timeout, and
with `ApiError` on a non-success HTTP status or a non-zero API error code; on a
successful response it always returns a price map, and a requested symbol whose
quote is missing or non-numeric is merely absent from that map. -/
theorem get_prices_error_taxonomy :
    (∀ (key : Option Str) (t : Except Unit ApiResponse) (syms : List Str),
        key.getD [] = [] → get_prices key t syms = .error .ConfigError)
  ∧ (∀ (key : Option Str) (t : Except Unit ApiResponse) (syms : List Str),
        key.getD [] ≠ [] → normalize_symbols syms = [] →
        get_prices key t syms = .error .InputError)
  ∧ (∀ (key : Option Str) (e : Unit) (syms : List Str),
        key.getD [] ≠ [] → normalize_symbols syms ≠ [] →
        get_prices key (.error e) syms = .error .NetworkError)
  ∧ (∀ (key : Option Str) (r : ApiResponse) (syms : List Str),
        key.getD [] ≠ [] → normalize_symbols syms ≠ [] →
        (r.status_code ≠ 200 ∨ r.error_code ≠ 0) →
        get_prices key (.ok r) syms = .error .ApiError)
  ∧ (∀ (key : Option Str) (r : ApiResponse) (syms : List Str),
        key.getD [] ≠ [] → normalize_symbols syms ≠ [] →
        r.status_code = 200 → r.error_code = 0 →
        get_prices key (.ok r) syms = .ok (collectQuotes (normalize_symbols syms) r.quotes)
          ∧ ∀ s ∈ normalize_symbols syms,
              (∀ v, (alookup r.quotes s).getD .missingItem ≠ .price v) →
              alookup (collectQuotes (normalize_symbols syms) r.quotes) s = none) := by
  refine ⟨?_, ?_, ?_, ?_, ?_⟩
  · intro key t syms h
    simp [get_prices, h]
  · intro key t syms h1 h2
    simp [get_prices, h1, h2]
  · intro key e syms h1 h2
    simp [get_prices, h1, h2]
  · intro key r syms h1 h2 h3
    by_cases hst : r.status_code = 200
    · rcases h3 with h3 | h3
      · exact absurd hst h3
      · simp [get_prices, h1, h2, hst, h3]
    · simp [get_prices, h1, h2, hst]
  · intro key r syms h1 h2 h3 h4
    constructor
    · simp [get_prices, h1, h2, h3, h4]
    · intro s hs hq
      exact collectQuotes_skip _ _ s (normalize_symbols_nodup syms) hs hq

/-- Witness for C7: one concrete run per error condition, plus a successful run
in which the requested symbol has no quote and is simply absent. -/
theorem get_prices_error_taxonomy_witness :
    get_prices none (.error ()) [chars "BTC"] = .error .ConfigError
  ∧ get_prices (some (chars "k")) (.error ()) [] = .error .InputError
  ∧ get_prices (some (chars "k")) (.error ()) [chars "BTC"] = .error .NetworkError
  ∧ get_prices (some (chars "k")) (.ok ⟨500, 0, []⟩) [chars "BTC"] = .error .ApiError
  ∧ get_prices (some (chars "k")) (.ok ⟨200, 0, []⟩) [chars "BTC"]
      = .ok (collectQuotes (normalize_symbols [chars "BTC"]) [])
  ∧ alookup (collectQuotes (normalize_symbols [chars "BTC"]) []) (chars "BTC") = none :=
  ⟨get_prices_error_taxonomy.1 none (.error ()) [chars "BTC"] rfl,
    get_prices_error_taxonomy.2.1 (some (chars "k")) (.error ()) [] (by decide) rfl,
    get_prices_error_taxonomy.2.2.1 (some (chars "k")) () [chars "BTC"]
      (by decide) (by decide),
    get_prices_error_taxonomy.2.2.2.1 (some (chars "k")) ⟨500, 0, []⟩ [chars "BTC"]
      (by decide) (by decide) (Or.inl (by decide)),
    (get_prices_error_taxonomy.2.2.2.2 (some (chars "k")) ⟨200, 0, []⟩ [chars "BTC"]
      (by decide) (by decide) rfl rfl).1,
    (get_prices_error_taxonomy.2.2.2.2 (some (chars "k")) ⟨200, 0, []⟩ [chars "BTC"]
      (by decide) (by decide) rfl rfl).2 (chars "BTC") (by decide)
      (fun v h => RawQuote.noConfusion h)⟩

/-- C9 counterexample: a successful run can return a value that is not finite —
a quoted price whose `float(...)` conversion yields infinity (e.g. the JSON
string `"inf"` or the number `1e999`) is stored as such, so "every value is a
finite float" fails at this input. -/
theorem get_prices_nonfinite_value :
    get_prices (some (chars "k"))
        (.ok ⟨200, 0, [(chars "BTC", RawQuote.price PyFloat.inf)]⟩) [chars "BTC"]
      = .ok [(chars "BTC", PyFloat.inf)]
    ∧ PyFloat.inf.isFinite = false := ⟨rfl, rfl⟩

/-- C9 (amended): on success every returned key is a member of the normalized
requested symbol list, and every returned value is the successfully parsed
float of that symbol's quote in the response — though not necessarily finite. -/
theorem get_prices_keys_and_values (key : Option Str) (t : Except Unit ApiResponse)
    (syms : List Str) (out : List (Str × PyFloat))
    (h : get_prices key t syms = .ok out) :
    ∀ p ∈ out, p.1 ∈ normalize_symbols syms
      ∧ ∃ r, t = .ok r ∧ (alookup r.quotes p.1).getD .missingItem = .price p.2 := by
  intro p hp
  simp only [get_prices] at h
  by_cases hk : key.getD [] = []
  · rw [if_pos hk] at h
    simp at h
  · rw [if_neg hk] at h
    by_cases hsy : normalize_symbols syms = []
    · rw [if_pos hsy] at h
      simp at h
    · rw [if_neg hsy] at h
      cases t with
      | error e => simp at h
      | ok r =>
        simp only at h
        by_cases hst : r.status_code ≠ 200
        · rw [if_pos hst] at h
          simp at h
        · rw [if_neg hst] at h
          by_cases hec : r.error_code ≠ 0
          · rw [if_pos hec] at h
            simp at h
          · rw [if_neg hec] at h
            have hout : out = collectQuotes (normalize_symbols syms) r.quotes := by
              injection h with h1
              exact h1.symm
            subst hout
            obtain ⟨h1, h2⟩ := collectQuotes_mem p _ r.quotes hp
            exact ⟨h1, r, rfl, h2⟩

/-- Witness for C9 (amended) at a successful concrete fetch. -/
theorem get_prices_keys_and_values_witness :
    (chars "BTC", PyFloat.finite 5).1 ∈ normalize_symbols [chars "BTC"]
      ∧ ∃ r, (Except.ok (⟨200, 0, [(chars "BTC", RawQuote.price (PyFloat.finite 5))]⟩
              : ApiResponse) : Except Unit ApiResponse) = .ok r
          ∧ (alookup r.quotes (chars "BTC", PyFloat.finite 5).1).getD .missingItem
              = .price (chars "BTC", PyFloat.finite 5).2 :=
  get_prices_keys_and_values (some (chars "k"))
    (.ok ⟨200, 0, [(chars "BTC", RawQuote.price (PyFloat.finite 5))]⟩)
    [chars "BTC"] [(chars "BTC", PyFloat.finite 5)] rfl
    (chars "BTC", PyFloat.finite 5) (by decide)
